import Mathlib

/-!
Verification of `pkg/justinstall/util.go` (just-install fetch/cache/execute pipeline)

A shallow embedding of the functions in `util.go`:

* `expandString` / `environMap` — template expansion over the merged environment
  (Go `text/template` semantics: a missing map key renders as `"<no value>"`,
  and the error returned by `Execute` is discarded by the code).
* `system` — child-process exit-code classification (the 3010 reboot sentinel).
* `downloadExt` / `crc32s` — deterministic cache path from the CRC32 of the URL.
* `download` / `maybeDownload` / `downloadTemp` — the cache write path: stream
  into `<dest>.tmp`, then promote by a single rename.
* `CustomGet` — vendor quirks: User-Agent / Referer injection by substring
  match, and the Oracle license cookie pre-seeded on two fixed base URLs.
* `extractZip` — archive extraction into a target directory.

Effectful steps (filesystem, network, child processes) are embedded by explicit
state passing: a download-side filesystem is a map from path strings to
optional byte lists, the extraction-side filesystem maps component-list paths
to optional nodes (file or directory; permission bits are not modelled), and
the outcomes of the OS/network calls a function makes (create/open/copy/close/
rename success, the HTTP response, the child's exit) are supplied as explicit
oracle values.  `log.Fatalf` calls are embedded as returned error values (the
Go code terminates the process there; nothing observable happens afterwards).
Paths are modelled with `/` as the separator.
-/

/-! ## String expander (`expandString`, `environMap`, util.go lines 27–63) -/

/-- A parsed `text/template` template restricted to the forms the spec's
templates use: literal text and `\x7b\x7b.NAME\x7d\x7d` variable references. -/
inductive TmplNode where
  | text (s : String)
  | var (name : String)
deriving DecidableEq, Repr

/-- A string-keyed map, as used for the template data. -/
def Ctx : Type := String → Option String

/-- Go map assignment `m[k] = v`. -/
def mapSet (m : Ctx) (k v : String) : Ctx := fun q => if q = k then some v else m q

/-- Key normalization performed by `environMap` (util.go lines 56–57):
upper-case the name, then rewrite the parenthesized architecture suffix. -/
def normalizeKey (k : String) : String := (k.toUpper).replace "(X86)" "_X86"

/-- Model of `environMap` (util.go lines 45–63).  The process environment is taken as a
list of (name, value) pairs (each `os.Environ()` entry split at its first
`=`).  Entries with both halves empty are skipped; names are normalized. -/
def environMap (environ : List (String × String)) : Ctx :=
  environ.foldl
    (fun acc kv =>
      if kv.1 = "" && kv.2 = "" then acc
      else mapSet acc (normalizeKey kv.1) kv.2)
    (fun _ => none)

/-- Execution of a parsed template against a data map, following Go
`text/template` semantics with the default `missingkey` option: a reference to
a key that is absent from the map renders as the literal `"<no value>"`, and
execution continues.  The `bytes.Buffer` is the accumulated string. -/
def execTemplate (t : List TmplNode) (data : Ctx) : String :=
  t.foldl
    (fun buf nd =>
      buf ++ match nd with
        | .text s => s
        | .var n => (data n).getD "<no value>")
    ""

/-- Model of `expandString` (util.go lines 29–42): build the data map from the process
environment, merge the caller context over it (context wins on collision, and
context keys are not normalized), then execute the template.  The error value
returned by `Execute` is discarded by the source, so the function is total. -/
def expandString (t : List TmplNode) (environ context : List (String × String)) : String :=
  let data := context.foldl (fun acc kv => mapSet acc kv.1 kv.2) (environMap environ)
  execTemplate t data

/-- Spec-side lookup in an association list where the last binding of a key
wins (Go map semantics for a list of assignments performed in order). -/
def lookupLast (l : List (String × String)) (k : String) : Option String :=
  match l with
  | [] => none
  | kv :: rest => (lookupLast rest k).or (if kv.1 = k then some kv.2 else none)

/-- Spec-side view of the environment half of the merged data map: skip
fully-empty entries, normalize names, last assignment wins. -/
def envLookup (environ : List (String × String)) (k : String) : Option String :=
  lookupLast
    ((environ.filter (fun kv => !(kv.1 = "" && kv.2 = ""))).map
      (fun kv => (normalizeKey kv.1, kv.2)))
    k

/-- Spec-side description of one rendered template node: text verbatim; a
variable reference is resolved in the caller context first, then in the
normalized environment, and renders as `"<no value>"` when absent from both. -/
def renderNode (environ context : List (String × String)) : TmplNode → String
  | .text s => s
  | .var n => ((lookupLast context n).or (envLookup environ n)).getD "<no value>"

/-- Concatenation of a list of rendered pieces. -/
def concatAll (l : List String) : String := l.foldr (· ++ ·) ""

/-! ## Process runner (`system`, util.go lines 65–104) -/

/-- Oracle for the behaviour of the spawned child process: `cmd.Start` may
fail; `cmd.Wait` may fail with an error that is not an `*exec.ExitError`
(or whose status is not a `syscall.WaitStatus`); otherwise the child runs to
completion and reports an exit code (0 means `Wait` returned nil). -/
inductive Spawn where
  | startFail
  | waitFail
  | exits (code : Nat)
deriving DecidableEq, Repr

/-- The error `system` propagates to its caller. -/
inductive SysErr where
  | startError
  | waitError
  | exitError (code : Nat)
deriving DecidableEq, Repr

/-- Model of `system` (util.go lines 65–104).  The one-argument and many-argument
`exec.Command` constructions differ only in how the command is built, not in
how its result is classified, so the model keeps a single non-empty case.
The child oracle is consulted only when a child is actually spawned. -/
def system (args : List String) (child : Spawn) : Option SysErr :=
  match args with
  | [] => none
  | _ :: _ =>
    match child with
    | .startFail => some .startError
    | .waitFail => some .waitError
    | .exits code =>
      if code = 0 then none
      else if code ≠ 3010 then some (.exitError code)
      else none

/-! ## CRC32 and the cache path (`crc32s`, `downloadExt`, util.go lines 106–147) -/

/-- The reflected IEEE CRC32 polynomial used by `hash/crc32.NewIEEE`. -/
def crc32Poly : Nat := 0xEDB88320

/-- One bit step of the reflected CRC32: shift right, conditionally xor the
polynomial.  All values stay below `2 ^ 32`. -/
def crc32Step (crc : Nat) : Nat :=
  if crc % 2 = 1 then (crc / 2) ^^^ crc32Poly else crc / 2

/-- Feed one byte into the CRC (xor into the low byte, then eight bit steps). -/
def crc32UpdateByte (crc b : Nat) : Nat := crc32Step^[8] (crc ^^^ b % 256)

/-- IEEE CRC32 of a byte sequence, as computed by `hash/crc32` (initial value
`0xFFFFFFFF`, final xor `0xFFFFFFFF`). -/
def crc32ieee (bs : List Nat) : Nat := (bs.foldl crc32UpdateByte 0xFFFFFFFF) ^^^ 0xFFFFFFFF

/-- UTF-8 encoding of one character, as Go's `[]byte(s)` conversion yields. -/
def utf8Bytes (c : Char) : List Nat :=
  let n := c.toNat
  if n < 0x80 then [n]
  else if n < 0x800 then [0xC0 + n / 0x40, 0x80 + n % 0x40]
  else if n < 0x10000 then [0xE0 + n / 0x1000, 0x80 + (n / 0x40) % 0x40, 0x80 + n % 0x40]
  else [0xF0 + n / 0x40000, 0x80 + (n / 0x1000) % 0x40, 0x80 + (n / 0x40) % 0x40, 0x80 + n % 0x40]

/-- The bytes of a string (Go `[]byte(s)`). -/
def strBytes (s : String) : List Nat := (s.data.map utf8Bytes).flatten

/-- The character `fmt.Sprintf "%X"` uses for one hex digit (`0`–`9`, `A`–`F`). -/
def hexDigitChar (n : Nat) : Char :=
  if n < 10 then Char.ofNat (48 + n) else Char.ofNat (55 + n)

/-- Big-endian hex digits, fuel-driven (the value shrinks by a factor of 16
each step, so fuel equal to the value is always enough). -/
def hexCharsFuel : Nat → Nat → List Char
  | 0, _ => []
  | _ + 1, 0 => []
  | fuel + 1, n + 1 => hexCharsFuel fuel ((n + 1) / 16) ++ [hexDigitChar ((n + 1) % 16)]

/-- Big-endian hex digits of `n`, no leading zeros (empty for 0). -/
def hexChars (n : Nat) : List Char := hexCharsFuel n n

/-- Model of `fmt.Sprintf "%X"`: upper-case hex, no padding, `"0"` for zero. -/
def toUpperHex (n : Nat) : String :=
  if n = 0 then "0" else String.mk (hexChars n)

/-- Model of `crc32s` (util.go lines 133–138): the CRC32 of the string's bytes,
formatted with `%X`. -/
def crc32s (s : String) : String := toUpperHex (crc32ieee (strBytes s))

/-- The sixteen characters an upper-case hex rendering may contain. -/
def hexUpperDigits : String := "0123456789ABCDEF"

/-- Does `l` start with the character sequence given first?  Returns the
remainder after it when so. -/
def stripSeq : List Char → List Char → Option (List Char)
  | [], l => some l
  | _ :: _, [] => none
  | c :: cs, x :: xs => if x = c then stripSeq cs xs else none

/-- Fuel-driven splitting of a character list at every leftmost,
non-overlapping occurrence of a non-empty separator (the semantics of Go's
`strings.Split` and of `String.splitOn`).  The fuel is only a structural
termination device; `splitSeq` supplies enough of it. -/
def splitSeqFuel (sep : List Char) : Nat → List Char → List (List Char)
  | 0, l => [l]
  | _ + 1, [] => [[]]
  | fuel + 1, c :: rest =>
    match stripSeq sep (c :: rest) with
    | some remainder => [] :: splitSeqFuel sep fuel remainder
    | none =>
      match splitSeqFuel sep fuel rest with
      | [] => [[c]]
      | part :: parts => (c :: part) :: parts

/-- Model of `strings.Split` on character lists.  An empty separator keeps the list
whole (no caller in the source splits on the empty string). -/
def splitSeq (sep l : List Char) : List (List Char) :=
  if sep = [] then [l] else splitSeqFuel sep l.length l

/-- Interleave `/` between path parts (`String.intercalate "/"` on parts). -/
def joinParts : List (List Char) → List Char
  | [] => []
  | [p] => p
  | p :: ps => p ++ '/' :: joinParts ps

/-- Model of `net/url.Parse` restricted to what the code consumes: the path
component of a hierarchical URL `scheme://host/path?query#fragment` (fragment
and query stripped first, as `Parse` does), with a string that has no
authority part kept whole as its path.  Parsing fails on ASCII control
characters, the common failure mode of `net/url.Parse`; percent-escape
validation is not modelled. -/
def urlPath (rawurl : String) : Option String :=
  if rawurl.data.any (fun c => c.toNat < 32 || c.toNat = 127) then none
  else
    let noFrag := (splitSeq ['#'] rawurl.data).headD []
    let noQuery := (splitSeq ['?'] noFrag).headD []
    match splitSeq [':', '/', '/'] noQuery with
    | [_, rest] =>
      match splitSeq ['/'] rest with
      | [] => some ""
      | [_] => some ""
      | _ :: parts => some (String.mk ('/' :: joinParts parts))
    | _ => some (String.mk noQuery)

/-- Model of `path/filepath.Ext`: the suffix of the last path element starting
at its last dot, or `""` when the last element has no dot.  Both separators
accepted by Go on Windows are recognized. -/
def pathExt (p : String) : String :=
  let comp := (((splitSeq ['/'] p.data).map (splitSeq ['\\'])).flatten).getLastD []
  match splitSeq ['.'] comp with
  | [] => ""
  | [_] => ""
  | parts => String.mk ('.' :: parts.getLastD [])

/-- Model of `path/filepath.Join` for a clean directory and a plain file name,
with `/` as the separator. -/
def filepathJoin (dir name : String) : String := dir ++ "/" ++ name

/-- Modelled from the spec: "cache root = platform temporary-files directory".
`tempPath` is defined in this repository outside the provided source slice;
the claims depend only on it being a fixed constant, so any fixed string
models it faithfully. -/
def tempPath : String := "TEMP/just-install"

/-- The `base` file name computed by `downloadExt` (util.go lines 115–129):
the CRC32 of the URL string plus either the explicit extension or the
extension of the parsed URL's path.  `none` models the `log.Fatalf` on an
unparsable URL. -/
def downloadExtBase (rawurl ext : String) : Option String :=
  (urlPath rawurl).map
    (fun p => if ext ≠ "" then crc32s rawurl ++ ext else crc32s rawurl ++ pathExt p)

/-- The cache path `downloadExt` hands to `downloadTemp` (util.go line 142):
the temporary-files root joined with the computed base name. -/
def downloadExtPath (rawurl ext : String) : Option String :=
  (downloadExtBase rawurl ext).map (filepathJoin tempPath)

/-! ## The download state machine (`download`, `maybeDownload`, `downloadTemp`,
util.go lines 140–206) -/

/-- The filesystem as the download path sees it: a map from path strings to
the byte contents of the file there, if any. -/
def DFS : Type := String → Option (List Nat)

/-- Point update of a download-side filesystem. -/
def dfsSet (fs : DFS) (p : String) (v : Option (List Nat)) : DFS :=
  fun q => if q = p then v else fs q

/-- The fatal outcomes of `download` (each is a `log.Fatalf` in the source). -/
inductive DlErr where
  | createError
  | connectError
  | unexpectedStatus (code : Nat)
  | copyError
  | closeError
  | renameError
deriving DecidableEq, Repr

/-- Oracle for the effectful steps of one `download` call: whether
`os.Create` succeeds, the HTTP response (`none` models a transport error from
`CustomGet`), the body copy outcome (`Except.error k` models `io.Copy`
failing after `k` bytes), and whether the destination close and the final
rename succeed. -/
structure DlEnv where
  createOk : Bool
  response : Option (Nat × List Nat)
  copyRes : Except Nat Unit
  closeOk : Bool
  renameOk : Bool

/-- Model of `download` (util.go lines 159–206).  All writes go to
`destinationPath ++ ".tmp"`; only the final `os.Rename` touches
`destinationPath`.  The progress bar has no filesystem effect and is not
modelled.  The returned error is the `log.Fatalf` taken, if any. -/
def download (fs : DFS) (env : DlEnv) (rawurl destinationPath : String) :
    DFS × Option DlErr :=
  let tempDestinationPath := destinationPath ++ ".tmp"
  if !env.createOk then (fs, some .createError)
  else
    let fs1 := dfsSet fs tempDestinationPath (some [])
    match env.response with
    | none => (fs1, some .connectError)
    | some (statusCode, body) =>
      if statusCode ≠ 200 then (fs1, some (.unexpectedStatus statusCode))
      else
        match env.copyRes with
        | .error k => (dfsSet fs1 tempDestinationPath (some (body.take k)), some .copyError)
        | .ok _ =>
          let fs2 := dfsSet fs1 tempDestinationPath (some body)
          if !env.closeOk then (fs2, some .closeError)
          else if !env.renameOk then (fs2, some .renameError)
          else (dfsSet (dfsSet fs2 destinationPath (some body)) tempDestinationPath none, none)

/-- Model of `dry.FileExists` on the download-side filesystem (the model has no
directories on this side, so presence is existence as a file). -/
def fileExistsDFS (fs : DFS) (p : String) : Bool := (fs p).isSome

/-- Model of `maybeDownload` (util.go lines 151–155).  The middle component records
whether a download (a network fetch) was performed. -/
def maybeDownload (fs : DFS) (env : DlEnv) (rawurl destinationPath : String)
    (force : Bool) : DFS × Bool × Option DlErr :=
  if !(fileExistsDFS fs destinationPath) || force then
    let r := download fs env rawurl destinationPath
    (r.1, true, r.2)
  else (fs, false, none)

/-- Model of `downloadTemp` (util.go lines 141–147): join the file name under the
temporary-files root, maybe download, and return that path. -/
def downloadTemp (fs : DFS) (env : DlEnv) (rawurl filename : String) (force : Bool) :
    String × DFS × Bool × Option DlErr :=
  let ret := filepathJoin tempPath filename
  (ret, maybeDownload fs env rawurl ret force)

/-- Model of `downloadExt` (util.go lines 115–130) composed end to end: compute the
base name (fatal on an unparsable URL), then `downloadTemp`. -/
def downloadExt (fs : DFS) (env : DlEnv) (rawurl ext : String) (force : Bool) :
    Option (String × DFS × Bool × Option DlErr) :=
  (downloadExtBase rawurl ext).map (fun base => downloadTemp fs env rawurl base force)

/-- Model of `downloadAutoExt` (util.go lines 107–109). -/
def downloadAutoExt (fs : DFS) (env : DlEnv) (rawurl : String) (force : Bool) :
    Option (String × DFS × Bool × Option DlErr) :=
  downloadExt fs env rawurl "" force

/-! ## The fetcher front door (`CustomGet`, util.go lines 208–243) -/

/-- The outgoing request: target URL plus the headers set on it. -/
structure HTTPRequest where
  url : String
  headers : List (String × String)
deriving DecidableEq, Repr

/-- Model of `request.Header.Set`: replace any previous value of the key. -/
def setHeader (r : HTTPRequest) (k v : String) : HTTPRequest :=
  { r with headers := (r.headers.filter (fun kv => kv.1 ≠ k)) ++ [(k, v)] }

/-- Read a header previously set on the request. -/
def getHeader (r : HTTPRequest) (k : String) : Option String :=
  (r.headers.find? (fun kv => kv.1 = k)).map (·.2)

/-- The configured HTTP client: the cookie jar entries (base URL, cookie
name, cookie value) and the optional custom timeout. -/
structure HTTPClient where
  jar : List (String × String × String)
  timeout : Option Nat
deriving DecidableEq, Repr

/-- Model of `strings.Contains`: the substring occurs iff splitting on it yields more
than one part. -/
def strContains (s sub : String) : Bool :=
  sub = "" || (splitSeq sub.data s.data).length ≥ 2

/-- Model of `http.NewRequest "GET"`: fails exactly when the URL does not parse. -/
def newRequest (urlStr : String) : Option HTTPRequest :=
  (urlPath urlStr).map (fun _ => { url := urlStr, headers := [] })

/-- Model of `CustomGet` (util.go lines 208–243) up to the point of dispatch: the
request as built (header quirks applied by substring match on the URL) and
the client configuration (cookie jar seeded unconditionally with the Oracle
license cookie on the two fixed base URLs; optional timeout override). -/
def CustomGet (urlStr : String) (timeout : Option Nat) :
    Option (HTTPRequest × HTTPClient) :=
  match newRequest urlStr with
  | none => none
  | some request0 =>
    let request1 :=
      if strContains urlStr "download-codeplex.sec.s-msft.com" then
        setHeader request0 "User-Agent" "chocolatey command line"
      else request0
    let request2 :=
      if strContains urlStr "ati.com" then
        setHeader request1 "Referer" "http://support.amd.com/"
      else request1
    let jar :=
      [("http://download.oracle.com", "oraclelicense", "accept-securebackup-cookie"),
       ("https://edelivery.oracle.com", "oraclelicense", "accept-securebackup-cookie")]
    some (request2, { jar := jar, timeout := timeout })

/-! ## Archive extraction (`extractZip`, util.go lines 245–284)

Paths on this side are component lists (`filepath.Join` is list append,
`filepath.Dir` is `dropLast`); zip entry names are taken as their cleaned
slash-separated components. -/

/-- A filesystem node: a regular file with its bytes, or a directory.
Permission bits are not modelled (no claim depends on them). -/
inductive FNode where
  | file (content : List Nat)
  | dir
deriving DecidableEq, Repr

/-- The filesystem as the extractor sees it. -/
def XFS : Type := List String → Option FNode

/-- Point update of an extraction-side filesystem. -/
def xset (fs : XFS) (p : List String) (v : Option FNode) : XFS :=
  fun q => if q = p then v else fs q

/-- Whether a node is a regular file. -/
def isFile : Option FNode → Bool
  | some (.file _) => true
  | _ => false

/-- Model of `os.MkdirAll`, walking the remaining components below `base`: an existing
directory is kept, a missing one is created, and an existing regular file
stops the walk (that is the `MkdirAll` error; every caller in `extractZip`
discards it). -/
def mkdirAllFrom (fs : XFS) (base : List String) : List String → XFS
  | [] => fs
  | c :: cs =>
    match fs (base ++ [c]) with
    | some (.file _) => fs
    | some .dir => mkdirAllFrom fs (base ++ [c]) cs
    | none => mkdirAllFrom (xset fs (base ++ [c]) (some .dir)) (base ++ [c]) cs

/-- Model of `os.MkdirAll` from the root. -/
def mkdirAll (fs : XFS) (p : List String) : XFS := mkdirAllFrom fs [] p

/-- One archive entry, bundled with the oracle outcomes of the effectful calls
made for it: whether `zipFile.Open` succeeds, and the `io.Copy` outcome
(`Except.error k` models the stream failing after `k` bytes; the source
discards this error).  `mode` mirrors `zipFile.Mode()`; permissions are not
modelled further. -/
structure ZipEntry where
  name : List String
  isDir : Bool
  mode : Nat
  openOk : Bool
  copyRes : Except Nat Unit
  content : List Nat

/-- The errors `extractZip` returns. -/
inductive ZipErr where
  | openArchive
  | createFile (p : List String)
  | openEntry (p : List String)
deriving DecidableEq, Repr

/-- The bytes `io.Copy` leaves in the destination file for an entry. -/
def entryWritten (e : ZipEntry) : List Nat :=
  match e.copyRes with
  | .ok _ => e.content
  | .error k => e.content.take k

/-- The body of `extractZip`'s loop (util.go lines 256–281).  `cf p = true`
models `os.Create` failing at path `p`.  A directory entry is `MkdirAll`
(error discarded); a file entry creates intermediate directories (error
discarded), creates the destination (empty) file, opens the entry — failure
here returns after the destination was already created — and streams the
content, whose error is discarded. -/
def extractEntries (cf : List String → Bool) (extractTo : List String) :
    XFS → List ZipEntry → XFS × Option ZipErr
  | fs, [] => (fs, none)
  | fs, e :: rest =>
    let destinationPath := extractTo ++ e.name
    if e.isDir then
      extractEntries cf extractTo (mkdirAll fs destinationPath) rest
    else
      let fs1 := mkdirAll fs destinationPath.dropLast
      if cf destinationPath then (fs1, some (.createFile destinationPath))
      else
        let fs2 := xset fs1 destinationPath (some (.file []))
        if !e.openOk then (fs2, some (.openEntry destinationPath))
        else
          extractEntries cf extractTo
            (xset fs2 destinationPath (some (.file (entryWritten e)))) rest

/-- Model of `extractZip` (util.go lines 245–284): create the target directory (error
discarded), open the archive (`none` models `zip.OpenReader` failing on
malformed headers), then extract the entries in order. -/
def extractZip (fs : XFS) (archive : Option (List ZipEntry)) (cf : List String → Bool)
    (extractTo : List String) : XFS × Option ZipErr :=
  let fs0 := mkdirAll fs extractTo
  match archive with
  | none => (fs0, some .openArchive)
  | some entries => extractEntries cf extractTo fs0 entries

/-- An entry that produces no error when processed: a directory entry, or a
file entry whose destination create and entry open both succeed (the copy
outcome is deliberately absent — its error is discarded by the source). -/
def entryFine (cf : List String → Bool) (extractTo : List String) (e : ZipEntry) : Bool :=
  e.isDir || (!cf (extractTo ++ e.name) && e.openOk)

/-! # Theorems -/

/-! ## String expander lemmas -/

theorem foldl_mapSet_eq (l : List (String × String)) (m : Ctx) (k : String) :
    l.foldl (fun acc kv => mapSet acc kv.1 kv.2) m k = (lookupLast l k).or (m k) := by
  induction l generalizing m with
  | nil => simp [lookupLast]
  | cons kv rest ih =>
    simp only [List.foldl_cons]
    rw [ih, lookupLast, Option.or_assoc]
    congr 1
    show mapSet m kv.1 kv.2 k = (if kv.1 = k then some kv.2 else none).or (m k)
    by_cases h : kv.1 = k
    · subst h; simp [mapSet]
    · rw [if_neg h, Option.none_or]
      show (if k = kv.1 then some kv.2 else m k) = m k
      exact if_neg (fun hke => h hke.symm)

theorem environMap_foldl (environ : List (String × String)) (m : Ctx) :
    environ.foldl
        (fun acc kv => if kv.1 = "" && kv.2 = "" then acc else mapSet acc (normalizeKey kv.1) kv.2)
        m =
      ((environ.filter (fun kv => !(kv.1 = "" && kv.2 = ""))).map
          (fun kv => (normalizeKey kv.1, kv.2))).foldl
        (fun acc kv => mapSet acc kv.1 kv.2) m := by
  induction environ generalizing m with
  | nil => rfl
  | cons kv rest ih =>
    rw [List.foldl_cons, List.filter_cons]
    by_cases h : kv.1 = "" ∧ kv.2 = ""
    · have hb : (decide (kv.1 = "") && decide (kv.2 = "")) = true := by simp [h.1, h.2]
      rw [if_pos hb, if_neg (by rw [hb]; exact (by decide : ¬((!true) = true)))]
      exact ih m
    · have hb : (decide (kv.1 = "") && decide (kv.2 = "")) = false := by
        rcases not_and_or.mp h with h1 | h1 <;> simp [h1]
      rw [if_neg (by rw [hb]; exact (by decide : ¬(false = true))),
        if_pos (by rw [hb]; exact (by decide : (!false) = true)),
        List.map_cons, List.foldl_cons]
      exact ih _

theorem environMap_eq (environ : List (String × String)) (k : String) :
    environMap environ k = envLookup environ k := by
  unfold environMap envLookup
  rw [environMap_foldl, foldl_mapSet_eq]
  exact Option.or_none

theorem execTemplate_foldl (t : List TmplNode) (data : Ctx) (buf : String) :
    t.foldl
        (fun buf nd =>
          buf ++ match nd with
            | .text s => s
            | .var n => (data n).getD "<no value>")
        buf =
      buf ++ concatAll (t.map (fun nd =>
        match nd with
        | .text s => s
        | .var n => (data n).getD "<no value>")) := by
  induction t generalizing buf with
  | nil => simp [concatAll]
  | cons nd rest ih =>
    simp only [List.foldl_cons, List.map_cons]
    rw [ih]
    show _ = buf ++ List.foldr (· ++ ·) "" (_ :: _)
    rw [List.foldr_cons, ← String.append_assoc]
    rfl

/-! ## Claim theorems: string expander (C3) -/

/-- C3 (counterexample): a template consisting of the single variable
reference `\x7b\x7b.FOO\x7d\x7d`, expanded with an empty environment and an
empty caller context, does not fail: `expandString` returns normally and the
undefined reference is rendered as the literal placeholder `"<no value>"` in
the output — contradicting the claim that an unresolved reference fails the
expansion as a fatal error rather than leaving placeholder text. -/
theorem expandString_undefined_var_counterexample :
    expandString [TmplNode.var "FOO"] [] [] = "<no value>" := by
  rfl

/-- C3 (amended): for every template and context mapping, expansion
substitutes each variable reference with its value from the merged context —
the process environment (names normalized, empty entries skipped, later
entries winning) overridden by the caller-supplied entries — and a reference
to a variable not present in the merged context is rendered as the literal
placeholder `"<no value>"` in the output; the expansion itself always returns
normally (the `Execute` error is discarded by the source). -/
theorem expandString_renders (t : List TmplNode) (environ context : List (String × String)) :
    expandString t environ context = concatAll (t.map (renderNode environ context)) := by
  unfold expandString execTemplate
  rw [execTemplate_foldl, String.empty_append]
  congr 1
  apply List.map_congr_left
  intro nd _
  cases nd with
  | text s => rfl
  | var n =>
    show (context.foldl (fun acc kv => mapSet acc kv.1 kv.2) (environMap environ) n).getD _ = _
    rw [foldl_mapSet_eq, environMap_eq]
    rfl

/-! ## Claim theorems: process runner (C1) -/

/-- C1: for every non-empty argument vector run through `system`, a child
exit code of 0 yields success (no error); an exit code of exactly 3010 is
reclassified as a non-error reboot-required success rather than propagated;
any other non-zero exit code yields an error carrying that code; and a
failure to start the child yields an error. -/
theorem system_exit_classification (args : List String) (h : args ≠ []) :
    system args (Spawn.exits 0) = none ∧
    system args (Spawn.exits 3010) = none ∧
    (∀ code, code ≠ 0 → code ≠ 3010 → system args (Spawn.exits code) = some (SysErr.exitError code)) ∧
    system args Spawn.startFail = some SysErr.startError := by
  match args, h with
  | a :: rest, _ =>
    refine ⟨rfl, by simp [system], ?_, rfl⟩
    intro code h0 h10
    simp [system, h0, h10]

/-- C1 (witness): the classification at a concrete argument vector and the
concrete exit codes 0, 3010, 1603, and a start failure. -/
theorem system_exit_classification_witness :
    system ["msiexec"] (Spawn.exits 0) = none ∧
    system ["msiexec"] (Spawn.exits 3010) = none ∧
    system ["msiexec"] (Spawn.exits 1603) = some (SysErr.exitError 1603) ∧
    system ["msiexec"] Spawn.startFail = some SysErr.startError := by
  have h := system_exit_classification ["msiexec"] (by simp)
  exact ⟨h.1, h.2.1, h.2.2.1 1603 (by omega) (by omega), h.2.2.2⟩

/-! ## Claim theorems: cache path (C4) -/

theorem hexDigitChar_mem : ∀ n < 16, hexDigitChar n ∈ hexUpperDigits.data := by decide

theorem hexCharsFuel_mem (fuel : Nat) :
    ∀ n, ∀ c ∈ hexCharsFuel fuel n, c ∈ hexUpperDigits.data := by
  induction fuel with
  | zero => intro n c hc; cases hc
  | succ f ih =>
    intro n c hc
    match n with
    | 0 => cases hc
    | m + 1 =>
      rw [hexCharsFuel] at hc
      rcases List.mem_append.mp hc with h | h
      · exact ih ((m + 1) / 16) c h
      · rw [List.mem_singleton] at h
        subst h
        exact hexDigitChar_mem _ (Nat.mod_lt _ (by omega))

theorem hexChars_mem (n : Nat) : ∀ c ∈ hexChars n, c ∈ hexUpperDigits.data :=
  hexCharsFuel_mem n n

theorem toUpperHex_mem (n : Nat) : ∀ c ∈ (toUpperHex n).data, c ∈ hexUpperDigits.data := by
  unfold toUpperHex
  by_cases h : n = 0
  · rw [if_pos h]; decide
  · rw [if_neg h]; exact hexChars_mem n

/-- C4: the cache path is a pure, deterministic function of the URL and the
extension alone: it is independent of the filesystem, the network oracle and
the force flag; when the URL parses it equals the fixed temporary-files root
joined with the CRC32 of the URL string followed by the explicit extension
when one is given, or else by the extension of the parsed URL's path; and the
CRC32 component is rendered in upper-case hexadecimal. -/
theorem downloadExt_cache_path (rawurl ext p : String) (h : urlPath rawurl = some p) :
    (∀ (fs fs' : DFS) (env env' : DlEnv) (force force' : Bool),
        (downloadExt fs env rawurl ext force).map (·.1) =
          (downloadExt fs' env' rawurl ext force').map (·.1)) ∧
    downloadExtPath rawurl ext =
      some (filepathJoin tempPath
        (crc32s rawurl ++ (if ext = "" then pathExt p else ext))) ∧
    (∀ c ∈ (crc32s rawurl).data, c ∈ hexUpperDigits.data) ∧
    (∀ fs env force,
        (downloadExt fs env rawurl ext force).map (·.1) = downloadExtPath rawurl ext) := by
  refine ⟨?_, ?_, ?_, ?_⟩
  · intro fs fs' env env' force force'
    cases hb : downloadExtBase rawurl ext <;>
      simp [downloadExt, hb, downloadTemp]
  · unfold downloadExtPath downloadExtBase
    rw [h]
    by_cases he : ext = "" <;> simp [he]
  · exact toUpperHex_mem _
  · intro fs env force
    cases hb : downloadExtBase rawurl ext <;>
      simp [downloadExt, downloadExtPath, hb, downloadTemp]

set_option maxRecDepth 8000 in
/-- C4 (witness): the cache path at a concrete URL with no explicit
extension: the CRC32 of the URL string in upper-case hex, the `.exe`
extension taken from the URL path, joined under the fixed root. -/
theorem downloadExt_cache_path_witness :
    urlPath "http://example.com/a.exe" = some "/a.exe" ∧
    downloadExtPath "http://example.com/a.exe" "" =
      some "TEMP/just-install/5FC4AB2F.exe" := by
  have h : urlPath "http://example.com/a.exe" = some "/a.exe" := by decide
  refine ⟨h, ?_⟩
  rw [(downloadExt_cache_path "http://example.com/a.exe" "" "/a.exe" h).2.1]
  decide

/-! ## Claim theorems: fetcher quirks (C6) -/

/-- C6: for every request URL that builds successfully, the vendor quirks are
applied by substring match before dispatch: a URL containing the codeplex
redirector domain carries the User-Agent header `chocolatey command line`; a
URL containing `ati.com` carries the Referer header
`http://support.amd.com/`; and, for every request regardless of its URL, the
`oraclelicense` accept cookie is pre-seeded in the jar on the two fixed
Oracle base URLs. -/
theorem customGet_quirks (urlStr : String) (t : Option Nat)
    (rc : HTTPRequest × HTTPClient) (h : CustomGet urlStr t = some rc) :
    (strContains urlStr "download-codeplex.sec.s-msft.com" = true →
        getHeader rc.1 "User-Agent" = some "chocolatey command line") ∧
    (strContains urlStr "ati.com" = true →
        getHeader rc.1 "Referer" = some "http://support.amd.com/") ∧
    ("http://download.oracle.com", "oraclelicense", "accept-securebackup-cookie") ∈ rc.2.jar ∧
    ("https://edelivery.oracle.com", "oraclelicense", "accept-securebackup-cookie") ∈ rc.2.jar := by
  unfold CustomGet newRequest at h
  cases hu : urlPath urlStr with
  | none => rw [hu] at h; cases h
  | some p =>
    rw [hu] at h
    simp only [Option.map_some', Option.some.injEq] at h
    subst h
    by_cases h1 : strContains urlStr "download-codeplex.sec.s-msft.com" = true <;>
      by_cases h2 : strContains urlStr "ati.com" = true <;>
        simp [h1, h2, getHeader, setHeader]

/-! ## Download lemmas -/

theorem tmp_ne_dest (dest : String) : dest ++ ".tmp" ≠ dest := by
  intro h
  have hlen := congrArg String.length h
  rw [String.length_append] at hlen
  have h4 : (".tmp" : String).length = 4 := rfl
  omega

theorem download_ok_dest (fs : DFS) (env : DlEnv) (rawurl dest : String)
    (h : (download fs env rawurl dest).2 = none) :
    ∃ body, env.response = some (200, body) ∧
      (download fs env rawurl dest).1 dest = some body ∧
      (download fs env rawurl dest).1 (dest ++ ".tmp") = none := by
  obtain ⟨co, resp, cr, clo, ren⟩ := env
  cases co
  · simp [download] at h
  · cases resp with
    | none => simp [download] at h
    | some sb =>
      obtain ⟨status, body⟩ := sb
      by_cases hst : status = 200
      · subst hst
        cases cr with
        | error k => simp [download] at h
        | ok u =>
          cases clo
          · simp [download] at h
          · cases ren
            · simp [download] at h
            · exact ⟨body, rfl,
                by simp [download, dfsSet, Ne.symm (tmp_ne_dest dest)],
                by simp [download, dfsSet]⟩
      · simp [download, hst] at h

/-! ## Claim theorems: download frame (C10) -/

/-- C10: during any download all byte writes go exclusively to the `.tmp`
path (every other path except the final destination is untouched); the final
destination is modified only when the copy, the close and the rename all
succeeded (the single rename), and any failure — including a failed rename —
leaves a pre-existing entry at the final path unchanged. -/
theorem download_frame (fs : DFS) (env : DlEnv) (rawurl dest : String) :
    (∀ p, p ≠ dest ++ ".tmp" → p ≠ dest → (download fs env rawurl dest).1 p = fs p) ∧
    ((download fs env rawurl dest).1 dest ≠ fs dest →
      (download fs env rawurl dest).2 = none ∧ env.copyRes = Except.ok () ∧
        env.closeOk = true ∧ env.renameOk = true) ∧
    (∀ e, (download fs env rawurl dest).2 = some e →
      (download fs env rawurl dest).1 dest = fs dest) := by
  obtain ⟨co, resp, cr, clo, ren⟩ := env
  have hnd : dest ≠ dest ++ ".tmp" := Ne.symm (tmp_ne_dest dest)
  cases co
  · exact ⟨fun p _ _ => rfl, fun hne => absurd rfl hne, fun e _ => rfl⟩
  · cases resp with
    | none =>
      refine ⟨fun p h1 _ => by simp [download, dfsSet, h1], ?_, fun e _ => by
        simp [download, dfsSet, hnd]⟩
      intro hne
      exact absurd (by simp [download, dfsSet, hnd]) hne
    | some sb =>
      obtain ⟨status, body⟩ := sb
      by_cases hst : status = 200
      · subst hst
        cases cr with
        | error k =>
          refine ⟨fun p h1 _ => by simp [download, dfsSet, h1], ?_, fun e _ => by
            simp [download, dfsSet, hnd]⟩
          intro hne
          exact absurd (by simp [download, dfsSet, hnd]) hne
        | ok u =>
          cases clo
          · refine ⟨fun p h1 _ => by simp [download, dfsSet, h1], ?_, fun e _ => by
              simp [download, dfsSet, hnd]⟩
            intro hne
            exact absurd (by simp [download, dfsSet, hnd]) hne
          · cases ren
            · refine ⟨fun p h1 _ => by simp [download, dfsSet, h1], ?_, fun e _ => by
                simp [download, dfsSet, hnd]⟩
              intro hne
              exact absurd (by simp [download, dfsSet, hnd]) hne
            · refine ⟨fun p h1 h2 => by simp [download, dfsSet, h1, h2], ?_, ?_⟩
              · exact fun _ => ⟨rfl, rfl, rfl, rfl⟩
              · intro e he
                simp [download] at he
      · refine ⟨fun p h1 _ => by simp [download, dfsSet, hst, h1], ?_, fun e _ => by
          simp [download, dfsSet, hst, hnd]⟩
        intro hne
        exact absurd (by simp [download, dfsSet, hst, hnd]) hne

/-- C10 (witness): with a close failure the pre-existing entry at the final
path survives unchanged and unrelated paths are untouched; with a fully
successful environment the final path does change, and the theorem certifies
that this only happens on full success of copy, close and rename. -/
theorem download_frame_witness :
    (download (fun p => if p = "d" then some [5] else none)
        ⟨true, some (200, [9]), Except.ok (), false, true⟩ "u" "d").1 "d" = some [5] ∧
    (download (fun p => if p = "d" then some [5] else none)
        ⟨true, some (200, [9]), Except.ok (), false, true⟩ "u" "d").1 "z" = none ∧
    (download (fun _ => none) ⟨true, some (200, [9]), Except.ok (), true, true⟩ "u" "d").2 =
      none := by
  have h1 := download_frame (fun p => if p = "d" then some [5] else none)
    ⟨true, some (200, [9]), Except.ok (), false, true⟩ "u" "d"
  have h2 := download_frame (fun _ => none)
    ⟨true, some (200, [9]), Except.ok (), true, true⟩ "u" "d"
  refine ⟨?_, ?_, ?_⟩
  · rw [h1.2.2 DlErr.closeError (by decide)]; decide
  · rw [h1.1 "z" (by decide) (by decide)]; decide
  · exact (h2.2.1 (by decide)).1

/-! ## Claim theorems: download atomicity (C2) -/

/-- C2: if any step of a download fails before the final rename — creating
the temporary file, opening the connection, a non-200 status, copying the
body, or closing the destination — then the final cache path is left exactly
as it was (in particular, absent if it was absent); on any failure only the
`.tmp` path can differ from the initial state; and on success the final path
holds the full response body, installed by the rename that also removes the
`.tmp` file. -/
theorem download_atomic (fs : DFS) (env : DlEnv) (rawurl dest : String) :
    (∀ e, (download fs env rawurl dest).2 = some e → e ≠ DlErr.renameError →
        (download fs env rawurl dest).1 dest = fs dest) ∧
    (∀ e, (download fs env rawurl dest).2 = some e →
        ∀ p, p ≠ dest ++ ".tmp" → (download fs env rawurl dest).1 p = fs p) ∧
    ((download fs env rawurl dest).2 = none →
        ∃ body, env.response = some (200, body) ∧
          (download fs env rawurl dest).1 dest = some body ∧
          (download fs env rawurl dest).1 (dest ++ ".tmp") = none) := by
  refine ⟨?_, ?_, download_ok_dest fs env rawurl dest⟩
  · intro e he _
    obtain ⟨co, resp, cr, clo, ren⟩ := env
    have hnd : dest ≠ dest ++ ".tmp" := Ne.symm (tmp_ne_dest dest)
    cases co
    · rfl
    · cases resp with
      | none => simp [download, dfsSet, hnd]
      | some sb =>
        obtain ⟨status, body⟩ := sb
        by_cases hst : status = 200
        · subst hst
          cases cr with
          | error k => simp [download, dfsSet, hnd]
          | ok u =>
            cases clo
            · simp [download, dfsSet, hnd]
            · cases ren
              · simp [download, dfsSet, hnd]
              · simp [download] at he
        · simp [download, dfsSet, hst, hnd]
  · intro e he p hp
    obtain ⟨co, resp, cr, clo, ren⟩ := env
    cases co
    · rfl
    · cases resp with
      | none => simp [download, dfsSet, hp]
      | some sb =>
        obtain ⟨status, body⟩ := sb
        by_cases hst : status = 200
        · subst hst
          cases cr with
          | error k => simp [download, dfsSet, hp]
          | ok u =>
            cases clo
            · simp [download, dfsSet, hp]
            · cases ren
              · simp [download, dfsSet, hp]
              · simp [download] at he
        · simp [download, dfsSet, hst, hp]

/-- C2 (witness): a download interrupted while copying the body leaves an
absent final path absent (only the `.tmp` path holds the partial bytes), and
a successful download installs the full body at the final path with the
`.tmp` file gone. -/
theorem download_atomic_witness :
    (download (fun _ => none) ⟨true, some (200, [7, 8, 9]), Except.error 2, true, true⟩
        "u" "d").1 "d" = none ∧
    (download (fun _ => none) ⟨true, some (200, [7, 8, 9]), Except.error 2, true, true⟩
        "u" "d").1 "d.tmp" = some [7, 8] ∧
    (download (fun _ => none) ⟨true, some (200, [7, 8, 9]), Except.ok (), true, true⟩
        "u" "d").1 "d" = some [7, 8, 9] ∧
    (download (fun _ => none) ⟨true, some (200, [7, 8, 9]), Except.ok (), true, true⟩
        "u" "d").1 "d.tmp" = none := by
  have h1 := download_atomic (fun _ => none)
    ⟨true, some (200, [7, 8, 9]), Except.error 2, true, true⟩ "u" "d"
  have h2 := download_atomic (fun _ => none)
    ⟨true, some (200, [7, 8, 9]), Except.ok (), true, true⟩ "u" "d"
  obtain ⟨body, hresp, hdest, htmp⟩ := h2.2.2 (by decide)
  have hb : body = [7, 8, 9] := by
    have := hresp
    simp at this
    exact this.symm
  subst hb
  refine ⟨?_, by decide, hdest, htmp⟩
  exact h1.1 DlErr.copyError (by decide) (by decide)

/-! ## Claim theorems: non-2xx status (C7) -/

/-- C7: an HTTP response whose status is not in the 2xx range (hence not
200) is a fatal error for the download — the unexpected-status error — and
the final cache path is left exactly as it was (no file appears there). -/
theorem download_non2xx_fatal (fs : DFS) (env : DlEnv) (rawurl dest : String)
    (status : Nat) (body : List Nat)
    (hc : env.createOk = true) (hr : env.response = some (status, body))
    (h2 : ¬(200 ≤ status ∧ status ≤ 299)) :
    (download fs env rawurl dest).2 = some (DlErr.unexpectedStatus status) ∧
    (download fs env rawurl dest).1 dest = fs dest := by
  have hst : status ≠ 200 := by omega
  obtain ⟨co, resp, cr, clo, ren⟩ := env
  simp only at hc hr
  subst hc
  subst hr
  constructor
  · simp [download, hst]
  · simp [download, dfsSet, hst, Ne.symm (tmp_ne_dest dest)]

/-- C7 (witness): a 404 response is fatal with the unexpected-status error
and creates nothing at the final path. -/
theorem download_non2xx_fatal_witness :
    (download (fun _ => none) ⟨true, some (404, [9]), Except.ok (), true, true⟩
        "u" "d").2 = some (DlErr.unexpectedStatus 404) ∧
    (download (fun _ => none) ⟨true, some (404, [9]), Except.ok (), true, true⟩
        "u" "d").1 "d" = none := by
  have h := download_non2xx_fatal (fun _ => none)
    ⟨true, some (404, [9]), Except.ok (), true, true⟩ "u" "d" 404 [9] rfl rfl (by omega)
  exact ⟨h.1, h.2⟩

/-! ## Claim theorems: cache hit policy (C5) -/

/-- C5: the ensure operation (`downloadTemp`/`maybeDownload`) returns the
deterministic cache path, performs a network download if and only if the
force flag is set or no file exists at that path, is a pure no-op (same
filesystem, no download, no error) on a cache hit with `force = false`, and
after any successful call a second call with `force = false` is a pure cache
hit. -/
theorem downloadTemp_cache_policy (fs : DFS) (env : DlEnv) (rawurl filename : String)
    (force : Bool) :
    (downloadTemp fs env rawurl filename force).1 = filepathJoin tempPath filename ∧
    ((downloadTemp fs env rawurl filename force).2.2.1 = true ↔
      (force = true ∨ fs (filepathJoin tempPath filename) = none)) ∧
    (force = false → fs (filepathJoin tempPath filename) ≠ none →
      (downloadTemp fs env rawurl filename force).2 = (fs, false, none)) ∧
    (∀ env2, (downloadTemp fs env rawurl filename force).2.2.2 = none →
      downloadTemp (downloadTemp fs env rawurl filename force).2.1 env2 rawurl filename false =
        (filepathJoin tempPath filename,
          (downloadTemp fs env rawurl filename force).2.1, false, none)) := by
  refine ⟨rfl, ?_, ?_, ?_⟩
  · cases force <;> cases hfp : fs (filepathJoin tempPath filename) <;>
      simp [downloadTemp, maybeDownload, fileExistsDFS, hfp]
  · intro hforce hsome
    subst hforce
    cases hfp : fs (filepathJoin tempPath filename) with
    | none => exact absurd hfp hsome
    | some c => simp [downloadTemp, maybeDownload, fileExistsDFS, hfp]
  · intro env2 herr
    cases hfe : fileExistsDFS fs (filepathJoin tempPath filename) with
    | false =>
      have hres : downloadTemp fs env rawurl filename force =
          (filepathJoin tempPath filename,
            (download fs env rawurl (filepathJoin tempPath filename)).1, true,
            (download fs env rawurl (filepathJoin tempPath filename)).2) := by
        simp [downloadTemp, maybeDownload, hfe]
      rw [hres] at herr ⊢
      obtain ⟨body, _, hdest, _⟩ := download_ok_dest fs env rawurl _ herr
      simp [downloadTemp, maybeDownload, fileExistsDFS, hdest]
    | true =>
      cases force with
      | false =>
        have hres : downloadTemp fs env rawurl filename false =
            (filepathJoin tempPath filename, fs, false, none) := by
          simp [downloadTemp, maybeDownload, hfe]
        rw [hres]
        simp [downloadTemp, maybeDownload, hfe]
      | true =>
        have hres : downloadTemp fs env rawurl filename true =
            (filepathJoin tempPath filename,
              (download fs env rawurl (filepathJoin tempPath filename)).1, true,
              (download fs env rawurl (filepathJoin tempPath filename)).2) := by
          simp [downloadTemp, maybeDownload, hfe]
        rw [hres] at herr ⊢
        obtain ⟨body, _, hdest, _⟩ := download_ok_dest fs env rawurl _ herr
        simp [downloadTemp, maybeDownload, fileExistsDFS, hdest]

/-- C5 (witness): with an existing cache entry and `force = false` the call
is a pure hit (no download, no change, same path); with `force = true` a
download is performed even though the entry exists; with an absent entry a
download is performed. -/
theorem downloadTemp_cache_policy_witness :
    (downloadTemp (fun p => if p = "TEMP/just-install/f.exe" then some [1] else none)
        ⟨true, some (200, [2]), Except.ok (), true, true⟩ "u" "f.exe" false).2 =
      ((fun p => if p = "TEMP/just-install/f.exe" then some [1] else none : DFS),
        false, none) ∧
    (downloadTemp (fun p => if p = "TEMP/just-install/f.exe" then some [1] else none)
        ⟨true, some (200, [2]), Except.ok (), true, true⟩ "u" "f.exe" true).2.2.1 = true ∧
    (downloadTemp (fun _ => none)
        ⟨true, some (200, [2]), Except.ok (), true, true⟩ "u" "f.exe" false).2.2.1 = true := by
  refine ⟨?_, ?_, ?_⟩
  · exact (downloadTemp_cache_policy
      (fun p => if p = "TEMP/just-install/f.exe" then some [1] else none)
      ⟨true, some (200, [2]), Except.ok (), true, true⟩ "u" "f.exe" false).2.2.1
      rfl (by decide)
  · exact (downloadTemp_cache_policy
      (fun p => if p = "TEMP/just-install/f.exe" then some [1] else none)
      ⟨true, some (200, [2]), Except.ok (), true, true⟩ "u" "f.exe" true).2.1.mpr
      (Or.inl rfl)
  · exact (downloadTemp_cache_policy (fun _ => none)
      ⟨true, some (200, [2]), Except.ok (), true, true⟩ "u" "f.exe" false).2.1.mpr
      (Or.inr rfl)

/-! ## Extraction lemmas: `mkdirAll` -/

theorem xset_self (fs : XFS) (p : List String) (v : Option FNode) : xset fs p v p = v :=
  if_pos rfl

theorem xset_other (fs : XFS) (p q : List String) (v : Option FNode) (h : q ≠ p) :
    xset fs p v q = fs q :=
  if_neg h

theorem append_take_ne (q l : List String) (i : Nat) (hi1 : 1 ≤ i) (hi2 : i ≤ l.length) :
    q ++ l.take i ≠ q := by
  intro h
  have hlen := congrArg List.length h
  rw [List.length_append, List.length_take] at hlen
  omega

theorem mkdirAllFrom_change (rest : List String) :
    ∀ (base : List String) (fs : XFS) (p : List String),
      mkdirAllFrom fs base rest p = fs p ∨
        (fs p = none ∧ mkdirAllFrom fs base rest p = some FNode.dir) := by
  induction rest with
  | nil => intro base fs p; exact Or.inl rfl
  | cons c cs ih =>
    intro base fs p
    cases hq : fs (base ++ [c]) with
    | none =>
      have hstep : mkdirAllFrom fs base (c :: cs) =
          mkdirAllFrom (xset fs (base ++ [c]) (some FNode.dir)) (base ++ [c]) cs := by
        simp only [mkdirAllFrom, hq]
      rw [hstep]
      rcases ih (base ++ [c]) (xset fs (base ++ [c]) (some FNode.dir)) p with h | ⟨h1, h2⟩
      · by_cases hp : p = base ++ [c]
        · subst hp
          right
          refine ⟨hq, ?_⟩
          rw [h, xset_self]
        · left
          rw [h, xset_other fs _ _ _ hp]
      · by_cases hp : p = base ++ [c]
        · subst hp
          rw [xset_self] at h1
          cases h1
        · rw [xset_other fs _ _ _ hp] at h1
          exact Or.inr ⟨h1, h2⟩
    | some v =>
      cases v with
      | file content =>
        have hstep : mkdirAllFrom fs base (c :: cs) = fs := by
          simp only [mkdirAllFrom, hq]
        rw [hstep]
        exact Or.inl rfl
      | dir =>
        have hstep : mkdirAllFrom fs base (c :: cs) = mkdirAllFrom fs (base ++ [c]) cs := by
          simp only [mkdirAllFrom, hq]
        rw [hstep]
        exact ih (base ++ [c]) fs p

theorem mkdirAllFrom_some (rest base : List String) (fs : XFS) (p : List String) (v : FNode)
    (h : fs p = some v) : mkdirAllFrom fs base rest p = some v := by
  rcases mkdirAllFrom_change rest base fs p with hc | ⟨h1, _⟩
  · rw [hc, h]
  · rw [h] at h1; cases h1

theorem mkdirAll_change (fs : XFS) (q p : List String) :
    mkdirAll fs q p = fs p ∨ (fs p = none ∧ mkdirAll fs q p = some FNode.dir) :=
  mkdirAllFrom_change q [] fs p

theorem mkdirAll_some (fs : XFS) (q p : List String) (v : FNode) (h : fs p = some v) :
    mkdirAll fs q p = some v :=
  mkdirAllFrom_some q [] fs p v h

theorem mkdirAll_not_file (fs : XFS) (q p : List String) (h : isFile (fs p) = false) :
    isFile (mkdirAll fs q p) = false := by
  rcases mkdirAll_change fs q p with hc | ⟨_, h2⟩
  · rw [hc]; exact h
  · rw [h2]; rfl

theorem mkdirAllFrom_creates (rest : List String) :
    ∀ (base : List String) (fs : XFS),
      (∀ j, 1 ≤ j → j ≤ rest.length → isFile (fs (base ++ rest.take j)) = false) →
      ∀ j, 1 ≤ j → j ≤ rest.length →
        mkdirAllFrom fs base rest (base ++ rest.take j) = some FNode.dir := by
  induction rest with
  | nil =>
    intro base fs _ j hj1 hj2
    exact absurd (Nat.le_trans hj1 hj2) (by simp)
  | cons c cs ih =>
    intro base fs H j hj1 hj2
    have h1 : isFile (fs (base ++ [c])) = false :=
      H 1 (by omega) (by simp only [List.length_cons]; omega)
    rw [List.length_cons] at hj2
    cases hq : fs (base ++ [c]) with
    | some v =>
      cases v with
      | file content =>
        rw [hq] at h1
        exact absurd h1 (by simp [isFile])
      | dir =>
        have hstep : mkdirAllFrom fs base (c :: cs) = mkdirAllFrom fs (base ++ [c]) cs := by
          simp only [mkdirAllFrom, hq]
        rw [hstep]
        rcases Nat.lt_or_ge j 2 with hj | hj
        · have hj1' : j = 1 := by omega
          subst hj1'
          exact mkdirAllFrom_some cs (base ++ [c]) fs (base ++ [c]) FNode.dir hq
        · obtain ⟨j', rfl⟩ : ∃ j', j = j' + 1 := ⟨j - 1, by omega⟩
          have H' : ∀ i, 1 ≤ i → i ≤ cs.length →
              isFile (fs ((base ++ [c]) ++ cs.take i)) = false := by
            intro i hi1 hi2
            have hh := H (i + 1) (by omega) (by simp only [List.length_cons]; omega)
            rw [List.take_succ_cons, List.append_cons] at hh
            exact hh
          have htake : base ++ (c :: cs).take (j' + 1) = (base ++ [c]) ++ cs.take j' := by
            rw [List.take_succ_cons, List.append_cons]
          rw [htake]
          exact ih (base ++ [c]) fs H' j' (by omega) (by omega)
    | none =>
      have hstep : mkdirAllFrom fs base (c :: cs) =
          mkdirAllFrom (xset fs (base ++ [c]) (some FNode.dir)) (base ++ [c]) cs := by
        simp only [mkdirAllFrom, hq]
      rw [hstep]
      rcases Nat.lt_or_ge j 2 with hj | hj
      · have hj1' : j = 1 := by omega
        subst hj1'
        exact mkdirAllFrom_some cs (base ++ [c]) _ (base ++ [c]) FNode.dir (xset_self fs _ _)
      · obtain ⟨j', rfl⟩ : ∃ j', j = j' + 1 := ⟨j - 1, by omega⟩
        have H' : ∀ i, 1 ≤ i → i ≤ cs.length →
            isFile ((xset fs (base ++ [c]) (some FNode.dir)) ((base ++ [c]) ++ cs.take i)) =
              false := by
          intro i hi1 hi2
          rw [xset_other fs _ _ _ (append_take_ne (base ++ [c]) cs i hi1 hi2)]
          have hh := H (i + 1) (by omega) (by simp only [List.length_cons]; omega)
          rw [List.take_succ_cons, List.append_cons] at hh
          exact hh
        have htake : base ++ (c :: cs).take (j' + 1) = (base ++ [c]) ++ cs.take j' := by
          rw [List.take_succ_cons, List.append_cons]
        rw [htake]
        exact ih (base ++ [c]) _ H' j' (by omega) (by omega)

theorem mkdirAll_creates (fs : XFS) (p : List String)
    (H : ∀ j, 1 ≤ j → j ≤ p.length → isFile (fs (p.take j)) = false) :
    ∀ j, 1 ≤ j → j ≤ p.length → mkdirAll fs p (p.take j) = some FNode.dir := by
  intro j h1 h2
  have hh := mkdirAllFrom_creates p [] fs (by simpa using H) j h1 h2
  simpa using hh

/-! ## Extraction lemmas: `extractEntries` -/

theorem extractEntries_change (cf : List String → Bool) (xt : List String)
    (entries : List ZipEntry) :
    ∀ (fs : XFS) (p : List String),
      (extractEntries cf xt fs entries).1 p = fs p ∨
        (fs p = none ∧ (extractEntries cf xt fs entries).1 p = some FNode.dir) ∨
        (∃ e, e ∈ entries ∧ e.isDir = false ∧ p = xt ++ e.name) := by
  induction entries with
  | nil => intro fs p; exact Or.inl rfl
  | cons e rest ih =>
    intro fs p
    cases hd : e.isDir with
    | true =>
      have hstep : extractEntries cf xt fs (e :: rest) =
          extractEntries cf xt (mkdirAll fs (xt ++ e.name)) rest := by
        simp [extractEntries, hd]
      rw [hstep]
      rcases ih (mkdirAll fs (xt ++ e.name)) p with h | ⟨h1, h2⟩ | ⟨b, hb, hbd, hbp⟩
      · rcases mkdirAll_change fs (xt ++ e.name) p with g | ⟨g1, g2⟩
        · exact Or.inl (h.trans g)
        · exact Or.inr (Or.inl ⟨g1, h.trans g2⟩)
      · rcases mkdirAll_change fs (xt ++ e.name) p with g | ⟨g1, g2⟩
        · rw [g] at h1; exact Or.inr (Or.inl ⟨h1, h2⟩)
        · rw [g2] at h1; cases h1
      · exact Or.inr (Or.inr ⟨b, List.mem_cons_of_mem e hb, hbd, hbp⟩)
    | false =>
      by_cases hpe : p = xt ++ e.name
      · exact Or.inr (Or.inr ⟨e, List.mem_cons_self e rest, hd, hpe⟩)
      · by_cases hcf : cf (xt ++ e.name) = true
        · have hstep : extractEntries cf xt fs (e :: rest) =
              (mkdirAll fs (xt ++ e.name).dropLast,
                some (ZipErr.createFile (xt ++ e.name))) := by
            simp [extractEntries, hd, hcf]
          rw [hstep]
          dsimp only
          rcases mkdirAll_change fs (xt ++ e.name).dropLast p with g | g
          · exact Or.inl g
          · exact Or.inr (Or.inl g)
        · have hcf' : cf (xt ++ e.name) = false := by
            cases hx : cf (xt ++ e.name)
            · rfl
            · exact absurd hx hcf
          cases ho : e.openOk with
          | false =>
            have hstep : extractEntries cf xt fs (e :: rest) =
                (xset (mkdirAll fs (xt ++ e.name).dropLast) (xt ++ e.name)
                  (some (FNode.file [])), some (ZipErr.openEntry (xt ++ e.name))) := by
              simp [extractEntries, hd, hcf', ho]
            rw [hstep]
            dsimp only
            rw [xset_other _ _ _ _ hpe]
            rcases mkdirAll_change fs (xt ++ e.name).dropLast p with g | g
            · exact Or.inl g
            · exact Or.inr (Or.inl g)
          | true =>
            have hstep : extractEntries cf xt fs (e :: rest) =
                extractEntries cf xt
                  (xset (xset (mkdirAll fs (xt ++ e.name).dropLast) (xt ++ e.name)
                      (some (FNode.file [])))
                    (xt ++ e.name) (some (FNode.file (entryWritten e)))) rest := by
              simp [extractEntries, hd, hcf', ho]
            rw [hstep]
            rcases ih (xset (xset (mkdirAll fs (xt ++ e.name).dropLast) (xt ++ e.name)
                  (some (FNode.file [])))
                (xt ++ e.name) (some (FNode.file (entryWritten e)))) p with
              h | ⟨h1, h2⟩ | ⟨b, hb, hbd, hbp⟩
            · rw [xset_other _ _ _ _ hpe, xset_other _ _ _ _ hpe] at h
              rcases mkdirAll_change fs (xt ++ e.name).dropLast p with g | ⟨g1, g2⟩
              · exact Or.inl (h.trans g)
              · exact Or.inr (Or.inl ⟨g1, h.trans g2⟩)
            · rw [xset_other _ _ _ _ hpe, xset_other _ _ _ _ hpe] at h1
              rcases mkdirAll_change fs (xt ++ e.name).dropLast p with g | ⟨g1, g2⟩
              · rw [g] at h1; exact Or.inr (Or.inl ⟨h1, h2⟩)
              · rw [g2] at h1; cases h1
            · exact Or.inr (Or.inr ⟨b, List.mem_cons_of_mem e hb, hbd, hbp⟩)

theorem extractEntries_keeps (cf : List String → Bool) (xt : List String)
    (entries : List ZipEntry) (fs : XFS) (p : List String) (v : FNode)
    (hne : ∀ b ∈ entries, p ≠ xt ++ b.name)
    (h : fs p = some v) :
    (extractEntries cf xt fs entries).1 p = some v := by
  rcases extractEntries_change cf xt entries fs p with hc | ⟨h1, _⟩ | ⟨b, hb, _, hbp⟩
  · rw [hc, h]
  · rw [h] at h1; cases h1
  · exact absurd hbp (hne b hb)

theorem extractEntries_ok_iff (cf : List String → Bool) (xt : List String)
    (entries : List ZipEntry) :
    ∀ fs : XFS, ((extractEntries cf xt fs entries).2 = none ↔
      ∀ e ∈ entries, entryFine cf xt e = true) := by
  induction entries with
  | nil => intro fs; simp [extractEntries]
  | cons e rest ih =>
    intro fs
    cases hd : e.isDir with
    | true =>
      have hstep : extractEntries cf xt fs (e :: rest) =
          extractEntries cf xt (mkdirAll fs (xt ++ e.name)) rest := by
        simp [extractEntries, hd]
      rw [hstep, ih]
      constructor
      · intro hall e' he'
        rcases List.mem_cons.mp he' with rfl | hmem
        · simp [entryFine, hd]
        · exact hall e' hmem
      · intro hall e' he'
        exact hall e' (List.mem_cons_of_mem e he')
    | false =>
      by_cases hcf : cf (xt ++ e.name) = true
      · have hstep : extractEntries cf xt fs (e :: rest) =
            (mkdirAll fs (xt ++ e.name).dropLast,
              some (ZipErr.createFile (xt ++ e.name))) := by
          simp [extractEntries, hd, hcf]
        rw [hstep]
        constructor
        · intro hnone
          simp at hnone
        · intro hall
          have hf := hall e (List.mem_cons_self e rest)
          simp [entryFine, hd, hcf] at hf
      · have hcf' : cf (xt ++ e.name) = false := by
          cases hx : cf (xt ++ e.name)
          · rfl
          · exact absurd hx hcf
        cases ho : e.openOk with
        | false =>
          have hstep : extractEntries cf xt fs (e :: rest) =
              (xset (mkdirAll fs (xt ++ e.name).dropLast) (xt ++ e.name)
                (some (FNode.file [])), some (ZipErr.openEntry (xt ++ e.name))) := by
            simp [extractEntries, hd, hcf', ho]
          rw [hstep]
          constructor
          · intro hnone
            simp at hnone
          · intro hall
            have hf := hall e (List.mem_cons_self e rest)
            simp [entryFine, hd, hcf', ho] at hf
        | true =>
          have hstep : extractEntries cf xt fs (e :: rest) =
              extractEntries cf xt
                (xset (xset (mkdirAll fs (xt ++ e.name).dropLast) (xt ++ e.name)
                    (some (FNode.file [])))
                  (xt ++ e.name) (some (FNode.file (entryWritten e)))) rest := by
            simp [extractEntries, hd, hcf', ho]
          rw [hstep, ih]
          constructor
          · intro hall e' he'
            rcases List.mem_cons.mp he' with rfl | hmem
            · simp [entryFine, hd, hcf', ho]
            · exact hall e' hmem
          · intro hall e' he'
            exact hall e' (List.mem_cons_of_mem e he')

theorem extractEntries_append_ok (cf : List String → Bool) (xt : List String)
    (l1 : List ZipEntry) :
    ∀ (l2 : List ZipEntry) (fs : XFS), (extractEntries cf xt fs l1).2 = none →
      extractEntries cf xt fs (l1 ++ l2) =
        extractEntries cf xt (extractEntries cf xt fs l1).1 l2 := by
  induction l1 with
  | nil => intro l2 fs _; rfl
  | cons e rest ih =>
    intro l2 fs hok
    cases hd : e.isDir with
    | true =>
      have hstep : extractEntries cf xt fs (e :: rest) =
          extractEntries cf xt (mkdirAll fs (xt ++ e.name)) rest := by
        simp [extractEntries, hd]
      rw [hstep] at hok
      have hstep2 : extractEntries cf xt fs ((e :: rest) ++ l2) =
          extractEntries cf xt (mkdirAll fs (xt ++ e.name)) (rest ++ l2) := by
        simp [extractEntries, hd]
      rw [hstep2, hstep, ih l2 _ hok]
    | false =>
      by_cases hcf : cf (xt ++ e.name) = true
      · have hstep : (extractEntries cf xt fs (e :: rest)).2 =
            some (ZipErr.createFile (xt ++ e.name)) := by
          simp [extractEntries, hd, hcf]
        rw [hstep] at hok
        cases hok
      · have hcf' : cf (xt ++ e.name) = false := by
          cases hx : cf (xt ++ e.name)
          · rfl
          · exact absurd hx hcf
        cases ho : e.openOk with
        | false =>
          have hstep : (extractEntries cf xt fs (e :: rest)).2 =
              some (ZipErr.openEntry (xt ++ e.name)) := by
            simp [extractEntries, hd, hcf', ho]
          rw [hstep] at hok
          cases hok
        | true =>
          have hstep : extractEntries cf xt fs (e :: rest) =
              extractEntries cf xt
                (xset (xset (mkdirAll fs (xt ++ e.name).dropLast) (xt ++ e.name)
                    (some (FNode.file [])))
                  (xt ++ e.name) (some (FNode.file (entryWritten e)))) rest := by
            simp [extractEntries, hd, hcf', ho]
          rw [hstep] at hok
          have hstep2 : extractEntries cf xt fs ((e :: rest) ++ l2) =
              extractEntries cf xt
                (xset (xset (mkdirAll fs (xt ++ e.name).dropLast) (xt ++ e.name)
                    (some (FNode.file [])))
                  (xt ++ e.name) (some (FNode.file (entryWritten e)))) (rest ++ l2) := by
            simp [extractEntries, hd, hcf', ho]
          rw [hstep2, hstep, ih l2 _ hok]

theorem extractEntries_openFail (cf : List String → Bool) (xt : List String) (e : ZipEntry)
    (rest : List ZipEntry) (fs : XFS) (hd : e.isDir = false)
    (hcf : cf (xt ++ e.name) = false) (ho : e.openOk = false) :
    extractEntries cf xt fs (e :: rest) =
      (xset (mkdirAll fs (xt ++ e.name).dropLast) (xt ++ e.name) (some (FNode.file [])),
        some (ZipErr.openEntry (xt ++ e.name))) := by
  simp [extractEntries, hd, hcf, ho]

/-! ## Extraction lemmas: destination paths -/

theorem take_ne_self (l : List String) (j : Nat) (hj : j < l.length) : l.take j ≠ l := by
  intro h
  have hlen := congrArg List.length h
  rw [List.length_take] at hlen
  omega

theorem xt_ne_dest (xt b : List String) (hb : b ≠ []) : xt ≠ xt ++ b := by
  intro h
  have hlen := congrArg List.length h
  rw [List.length_append] at hlen
  exact hb (List.length_eq_zero.mp (by omega))

theorem take_append_eq (xt a b : List String) (j : Nat)
    (hj : j ≤ xt.length + a.length)
    (h : (xt ++ a).take j = xt ++ b) :
    b = a.take (j - xt.length) ∧ j - xt.length ≤ a.length ∧ xt.length ≤ j := by
  have hxj : xt.length ≤ j := by
    have hlen := congrArg List.length h
    rw [List.length_take, List.length_append, List.length_append] at hlen
    omega
  have ht : (xt ++ a).take j = xt ++ a.take (j - xt.length) := by
    rw [List.take_append_eq_append_take, List.take_of_length_le hxj]
  rw [ht] at h
  exact ⟨(List.append_cancel_left h).symm, by omega, hxj⟩

theorem dest_take_ne (xt : List String) (a b : ZipEntry) (j : Nat)
    (hj1 : j ≤ (xt ++ a.name).length)
    (hne : a.name ≠ b.name)
    (hnopre : ∀ i, i < a.name.length → b.name ≠ a.name.take i) :
    (xt ++ a.name).take j ≠ xt ++ b.name := by
  intro h
  rw [List.length_append] at hj1
  obtain ⟨hb, hle, _⟩ := take_append_eq xt a.name b.name j hj1 h
  rcases Nat.lt_or_ge (j - xt.length) a.name.length with hlt | hge
  · exact hnopre _ hlt hb
  · have hfull : j - xt.length = a.name.length := by omega
    rw [hfull, List.take_length] at hb
    exact hne hb.symm

/-! ## The main extraction invariant -/

theorem extractEntries_correct (cf : List String → Bool) (xt : List String) :
    ∀ (entries : List ZipEntry) (fs : XFS),
      (∀ e ∈ entries, e.openOk = true) →
      (∀ e ∈ entries, e.copyRes = Except.ok ()) →
      (∀ e ∈ entries, cf (xt ++ e.name) = false) →
      (∀ e ∈ entries, e.name ≠ []) →
      List.Pairwise (fun a b => a.name ≠ b.name) entries →
      (∀ a ∈ entries, ∀ b ∈ entries, ∀ j, j < b.name.length → a.name ≠ b.name.take j) →
      (∀ e ∈ entries, ∀ j, j ≤ (xt ++ e.name).length →
        isFile (fs ((xt ++ e.name).take j)) = false) →
      ((extractEntries cf xt fs entries).2 = none ∧
        (∀ e ∈ entries,
          (extractEntries cf xt fs entries).1 (xt ++ e.name) =
            some (if e.isDir then FNode.dir else FNode.file e.content)) ∧
        (∀ e ∈ entries, ∀ j, 1 ≤ j → j < (xt ++ e.name).length →
          (extractEntries cf xt fs entries).1 ((xt ++ e.name).take j) = some FNode.dir)) := by
  intro entries
  induction entries with
  | nil =>
    intro fs _ _ _ _ _ _ _
    exact ⟨rfl, fun e he => absurd he (List.not_mem_nil e),
      fun e he => absurd he (List.not_mem_nil e)⟩
  | cons e rest ih =>
    intro fs H1 H2 H3 H4 H5 H6 H7
    have hmem : e ∈ e :: rest := List.mem_cons_self e rest
    have hname : e.name ≠ [] := H4 e hmem
    obtain ⟨hpw, H5r⟩ := List.pairwise_cons.mp H5
    have H1r : ∀ b ∈ rest, b.openOk = true := fun b hb => H1 b (List.mem_cons_of_mem e hb)
    have H2r : ∀ b ∈ rest, b.copyRes = Except.ok () :=
      fun b hb => H2 b (List.mem_cons_of_mem e hb)
    have H3r : ∀ b ∈ rest, cf (xt ++ b.name) = false :=
      fun b hb => H3 b (List.mem_cons_of_mem e hb)
    have H4r : ∀ b ∈ rest, b.name ≠ [] := fun b hb => H4 b (List.mem_cons_of_mem e hb)
    have H6r : ∀ a ∈ rest, ∀ b ∈ rest, ∀ j, j < b.name.length → a.name ≠ b.name.take j :=
      fun a ha b hb => H6 a (List.mem_cons_of_mem e ha) b (List.mem_cons_of_mem e hb)
    have hdne : ∀ b ∈ rest, xt ++ e.name ≠ xt ++ b.name :=
      fun b hb hh => hpw b hb (List.append_cancel_left hh)
    have hpne : ∀ b ∈ rest, ∀ j, j ≤ (xt ++ e.name).length →
        (xt ++ e.name).take j ≠ xt ++ b.name := by
      intro b hb j hj
      exact dest_take_ne xt e b j hj (hpw b hb)
        (fun i hi => H6 b (List.mem_cons_of_mem e hb) e hmem i hi)
    have hlen1 : 1 ≤ (xt ++ e.name).length := by
      rw [List.length_append]
      have := List.length_pos.mpr hname
      omega
    cases hd : e.isDir with
    | true =>
      have hstep : extractEntries cf xt fs (e :: rest) =
          extractEntries cf xt (mkdirAll fs (xt ++ e.name)) rest := by
        simp [extractEntries, hd]
      have hcre : ∀ j, 1 ≤ j → j ≤ (xt ++ e.name).length →
          (mkdirAll fs (xt ++ e.name)) ((xt ++ e.name).take j) = some FNode.dir :=
        mkdirAll_creates fs (xt ++ e.name) (fun j _ hj2 => H7 e hmem j hj2)
      have H7r : ∀ b ∈ rest, ∀ j, j ≤ (xt ++ b.name).length →
          isFile ((mkdirAll fs (xt ++ e.name)) ((xt ++ b.name).take j)) = false :=
        fun b hb j hj => mkdirAll_not_file fs _ _ (H7 b (List.mem_cons_of_mem e hb) j hj)
      obtain ⟨G1, G2, G3⟩ := ih (mkdirAll fs (xt ++ e.name)) H1r H2r H3r H4r H5r H6r H7r
      rw [hstep]
      refine ⟨G1, ?_, ?_⟩
      · intro b hb
        rcases List.mem_cons.mp hb with rfl | hbr
        · have haux : (if b.isDir then FNode.dir else FNode.file b.content) = FNode.dir := by
            rw [hd]; rfl
          rw [haux]
          have hfd : (mkdirAll fs (xt ++ b.name)) (xt ++ b.name) = some FNode.dir := by
            have hh := hcre (xt ++ b.name).length hlen1 (le_refl _)
            rwa [List.take_length] at hh
          exact extractEntries_keeps cf xt rest _ _ FNode.dir hdne hfd
        · exact G2 b hbr
      · intro b hb j hj1 hj2
        rcases List.mem_cons.mp hb with rfl | hbr
        · exact extractEntries_keeps cf xt rest _ _ FNode.dir
            (fun b' hb' => hpne b' hb' j (Nat.le_of_lt hj2))
            (hcre j hj1 (Nat.le_of_lt hj2))
        · exact G3 b hbr j hj1 hj2
    | false =>
      have hcf : cf (xt ++ e.name) = false := H3 e hmem
      have ho : e.openOk = true := H1 e hmem
      have hcp : e.copyRes = Except.ok () := H2 e hmem
      have hwritten : entryWritten e = e.content := by simp [entryWritten, hcp]
      have hstep : extractEntries cf xt fs (e :: rest) =
          extractEntries cf xt
            (xset (xset (mkdirAll fs (xt ++ e.name).dropLast) (xt ++ e.name)
                (some (FNode.file [])))
              (xt ++ e.name) (some (FNode.file e.content))) rest := by
        simp [extractEntries, hd, hcf, ho, hwritten]
      have hddl : (xt ++ e.name).dropLast.length = (xt ++ e.name).length - 1 := by
        rw [List.dropLast_eq_take, List.length_take]
        omega
      have htake_dl : ∀ j, j ≤ (xt ++ e.name).length - 1 →
          (xt ++ e.name).dropLast.take j = (xt ++ e.name).take j := by
        intro j hj
        rw [List.dropLast_eq_take, List.take_take]
        congr 1
        omega
      have hbase : ∀ i, 1 ≤ i → i ≤ (xt ++ e.name).dropLast.length →
          isFile (fs ((xt ++ e.name).dropLast.take i)) = false := by
        intro i _ hi2
        rw [hddl] at hi2
        rw [htake_dl i hi2]
        exact H7 e hmem i (by omega)
      have hcre : ∀ j, 1 ≤ j → j ≤ (xt ++ e.name).length - 1 →
          (mkdirAll fs (xt ++ e.name).dropLast) ((xt ++ e.name).take j) = some FNode.dir := by
        intro j hj1 hj2
        have hh := mkdirAllFrom_creates (xt ++ e.name).dropLast [] fs
          (by simpa using hbase) j hj1 (by rw [hddl]; omega)
        rw [htake_dl j hj2] at hh
        simpa using hh
      have hfs3dest :
          (xset (xset (mkdirAll fs (xt ++ e.name).dropLast) (xt ++ e.name)
              (some (FNode.file [])))
            (xt ++ e.name) (some (FNode.file e.content))) (xt ++ e.name) =
            some (FNode.file e.content) :=
        xset_self _ _ _
      have hfs3take : ∀ j, 1 ≤ j → j < (xt ++ e.name).length →
          (xset (xset (mkdirAll fs (xt ++ e.name).dropLast) (xt ++ e.name)
              (some (FNode.file [])))
            (xt ++ e.name) (some (FNode.file e.content))) ((xt ++ e.name).take j) =
            some FNode.dir := by
        intro j hj1 hj2
        rw [xset_other _ _ _ _ (take_ne_self _ j hj2),
          xset_other _ _ _ _ (take_ne_self _ j hj2)]
        exact hcre j hj1 (by omega)
      have H7r : ∀ b ∈ rest, ∀ j, j ≤ (xt ++ b.name).length →
          isFile ((xset (xset (mkdirAll fs (xt ++ e.name).dropLast) (xt ++ e.name)
              (some (FNode.file [])))
            (xt ++ e.name) (some (FNode.file e.content))) ((xt ++ b.name).take j)) =
            false := by
        intro b hb j hj
        have hq : (xt ++ b.name).take j ≠ xt ++ e.name :=
          dest_take_ne xt b e j hj (fun hh => hpw b hb hh.symm)
            (fun i hi => H6 e hmem b (List.mem_cons_of_mem e hb) i hi)
        rw [xset_other _ _ _ _ hq, xset_other _ _ _ _ hq]
        exact mkdirAll_not_file fs _ _ (H7 b (List.mem_cons_of_mem e hb) j hj)
      obtain ⟨G1, G2, G3⟩ := ih
        (xset (xset (mkdirAll fs (xt ++ e.name).dropLast) (xt ++ e.name)
            (some (FNode.file [])))
          (xt ++ e.name) (some (FNode.file e.content)))
        H1r H2r H3r H4r H5r H6r H7r
      rw [hstep]
      refine ⟨G1, ?_, ?_⟩
      · intro b hb
        rcases List.mem_cons.mp hb with rfl | hbr
        · have haux : (if b.isDir then FNode.dir else FNode.file b.content) =
              FNode.file b.content := by
            rw [hd]; rfl
          rw [haux]
          exact extractEntries_keeps cf xt rest _ _ (FNode.file b.content) hdne hfs3dest
        · exact G2 b hbr
      · intro b hb j hj1 hj2
        rcases List.mem_cons.mp hb with rfl | hbr
        · exact extractEntries_keeps cf xt rest _ _ FNode.dir
            (fun b' hb' => hpne b' hb' j (Nat.le_of_lt hj2))
            (hfs3take j hj1 hj2)
        · exact G3 b hbr j hj1 hj2

/-! ## Claim theorems: extraction (C8, C9) -/

/-- C8: for every well-formed archive — entries with non-empty, pairwise
distinct, prefix-free names, every entry openable and fully streamable, no
destination create failure — extracted into a filesystem with no regular
file anywhere in the way, `extractZip` succeeds, creates the target
directory if absent, reproduces each file entry's content byte-for-byte at
its path joined under the target directory, creates each directory entry as
a directory, and creates every intermediate directory; in particular an
archive holding `a/b.txt` with content `"hello"` yields `targetDir/a/b.txt`
containing exactly those bytes and `targetDir/a` as a directory. -/
theorem extractZip_correct (fs : XFS) (entries : List ZipEntry) (cf : List String → Bool)
    (extractTo : List String)
    (hxt : extractTo ≠ [])
    (H1 : ∀ e ∈ entries, e.openOk = true)
    (H2 : ∀ e ∈ entries, e.copyRes = Except.ok ())
    (H3 : ∀ e ∈ entries, cf (extractTo ++ e.name) = false)
    (H4 : ∀ e ∈ entries, e.name ≠ [])
    (H5 : List.Pairwise (fun a b => a.name ≠ b.name) entries)
    (H6 : ∀ a ∈ entries, ∀ b ∈ entries, ∀ j, j < b.name.length → a.name ≠ b.name.take j)
    (H7 : ∀ p, isFile (fs p) = false) :
    (extractZip fs (some entries) cf extractTo).2 = none ∧
    (extractZip fs (some entries) cf extractTo).1 extractTo = some FNode.dir ∧
    (∀ e ∈ entries,
      (extractZip fs (some entries) cf extractTo).1 (extractTo ++ e.name) =
        some (if e.isDir then FNode.dir else FNode.file e.content)) ∧
    (∀ e ∈ entries, ∀ j, 1 ≤ j → j < (extractTo ++ e.name).length →
      (extractZip fs (some entries) cf extractTo).1 ((extractTo ++ e.name).take j) =
        some FNode.dir) := by
  have hstep : extractZip fs (some entries) cf extractTo =
      extractEntries cf extractTo (mkdirAll fs extractTo) entries := rfl
  have H7' : ∀ e ∈ entries, ∀ j, j ≤ (extractTo ++ e.name).length →
      isFile ((mkdirAll fs extractTo) ((extractTo ++ e.name).take j)) = false :=
    fun e _ j _ => mkdirAll_not_file fs extractTo _ (H7 _)
  obtain ⟨G1, G2, G3⟩ := extractEntries_correct cf extractTo entries (mkdirAll fs extractTo)
    H1 H2 H3 H4 H5 H6 H7'
  rw [hstep]
  refine ⟨G1, ?_, G2, G3⟩
  have hxtd : (mkdirAll fs extractTo) extractTo = some FNode.dir := by
    have hh := mkdirAll_creates fs extractTo (fun j _ _ => H7 _) extractTo.length
      (by have := List.length_pos.mpr hxt; omega) (le_refl _)
    rwa [List.take_length] at hh
  exact extractEntries_keeps cf extractTo entries _ _ FNode.dir
    (fun b hb => xt_ne_dest extractTo b.name (H4 b hb)) hxtd

/-- C8 (witness): the archive containing the single file entry `a/b.txt`
with content `"hello"` (bytes 104 101 108 108 111), extracted into an empty
filesystem at `targetDir`: extraction succeeds, `targetDir/a/b.txt` holds
exactly those bytes, and both `targetDir` and `targetDir/a` are
directories. -/
theorem extractZip_correct_witness :
    (extractZip (fun _ => none)
        (some [⟨["a", "b.txt"], false, 420, true, Except.ok (), [104, 101, 108, 108, 111]⟩])
        (fun _ => false) ["targetDir"]).2 = none ∧
    (extractZip (fun _ => none)
        (some [⟨["a", "b.txt"], false, 420, true, Except.ok (), [104, 101, 108, 108, 111]⟩])
        (fun _ => false) ["targetDir"]).1 ["targetDir", "a", "b.txt"] =
      some (FNode.file [104, 101, 108, 108, 111]) ∧
    (extractZip (fun _ => none)
        (some [⟨["a", "b.txt"], false, 420, true, Except.ok (), [104, 101, 108, 108, 111]⟩])
        (fun _ => false) ["targetDir"]).1 ["targetDir", "a"] = some FNode.dir ∧
    (extractZip (fun _ => none)
        (some [⟨["a", "b.txt"], false, 420, true, Except.ok (), [104, 101, 108, 108, 111]⟩])
        (fun _ => false) ["targetDir"]).1 ["targetDir"] = some FNode.dir := by
  have h := extractZip_correct (fun _ => none)
    [⟨["a", "b.txt"], false, 420, true, Except.ok (), [104, 101, 108, 108, 111]⟩]
    (fun _ => false) ["targetDir"]
    (by decide)
    (by intro e he; rw [List.mem_singleton] at he; subst he; rfl)
    (by intro e he; rw [List.mem_singleton] at he; subst he; rfl)
    (by intro e _; rfl)
    (by intro e he; rw [List.mem_singleton] at he; subst he; decide)
    (by simp)
    (by
      intro a ha b hb j hj
      rw [List.mem_singleton] at ha hb
      subst ha
      subst hb
      match j, hj with
      | 0, _ => decide
      | 1, _ => decide)
    (fun _ => rfl)
  refine ⟨h.1, ?_, ?_, h.2.1⟩
  · exact h.2.2.1 _ (List.mem_singleton.mpr rfl)
  · exact h.2.2.2 _ (List.mem_singleton.mpr rfl) 2 (by omega) (by decide)

/-- C9 (counterexample): an archive whose single file entry opens fine but
whose content stream fails after one byte: `extractZip` ignores the
`io.Copy` error — it returns success (no error) and leaves the partially
written file in place — contradicting the claim that a failure while
streaming an entry's content makes extraction return an error. -/
theorem extractZip_copy_error_ignored :
    (extractZip (fun _ => none)
        (some [⟨["a.txt"], false, 420, true, Except.error 1, [104, 105]⟩])
        (fun _ => false) ["t"]).2 = none ∧
    (extractZip (fun _ => none)
        (some [⟨["a.txt"], false, 420, true, Except.error 1, [104, 105]⟩])
        (fun _ => false) ["t"]).1 ["t", "a.txt"] = some (FNode.file [104]) := by
  exact ⟨rfl, by decide⟩

/-- C9 (amended): extraction fails fast, returning an error, when the
archive has malformed headers, when a destination file cannot be created, or
when an entry cannot be opened — leaving entries already extracted in place
(no rollback; beyond the failing entry's own destination, paths keep their
prior contents, with at most new directories created); it returns success
exactly when the archive opens and every file entry's destination create and
entry open succeed — in particular a failure while streaming an entry's
content is ignored (the copy error is discarded and extraction continues and
reports success). -/
theorem extractZip_error_policy (cf : List String → Bool) (xt : List String) :
    (∀ fs : XFS, (extractZip fs none cf xt).2 = some ZipErr.openArchive) ∧
    (∀ (fs : XFS) (entries : List ZipEntry),
      ((extractZip fs (some entries) cf xt).2 = none ↔
        ∀ e ∈ entries, entryFine cf xt e = true)) ∧
    (∀ (fs : XFS) (pre rest : List ZipEntry) (e : ZipEntry),
      (∀ b ∈ pre, entryFine cf xt b = true) →
      e.isDir = false → cf (xt ++ e.name) = false → e.openOk = false →
      (extractZip fs (some (pre ++ e :: rest)) cf xt).2 =
          some (ZipErr.openEntry (xt ++ e.name)) ∧
        (∀ p, p ≠ xt ++ e.name →
          (extractZip fs (some (pre ++ e :: rest)) cf xt).1 p =
              (extractEntries cf xt (mkdirAll fs xt) pre).1 p ∨
            ((extractEntries cf xt (mkdirAll fs xt) pre).1 p = none ∧
              (extractZip fs (some (pre ++ e :: rest)) cf xt).1 p = some FNode.dir))) := by
  refine ⟨fun fs => rfl, ?_, ?_⟩
  · intro fs entries
    exact extractEntries_ok_iff cf xt entries (mkdirAll fs xt)
  · intro fs pre rest e hpre hd hcf ho
    have hpok : (extractEntries cf xt (mkdirAll fs xt) pre).2 = none :=
      (extractEntries_ok_iff cf xt pre (mkdirAll fs xt)).mpr hpre
    have happ := extractEntries_append_ok cf xt pre (e :: rest) (mkdirAll fs xt) hpok
    have hfail := extractEntries_openFail cf xt e rest
      (extractEntries cf xt (mkdirAll fs xt) pre).1 hd hcf ho
    have hstep : extractZip fs (some (pre ++ e :: rest)) cf xt =
        (xset (mkdirAll (extractEntries cf xt (mkdirAll fs xt) pre).1
            (xt ++ e.name).dropLast)
          (xt ++ e.name) (some (FNode.file [])),
          some (ZipErr.openEntry (xt ++ e.name))) := by
      show extractEntries cf xt (mkdirAll fs xt) (pre ++ e :: rest) = _
      rw [happ, hfail]
    constructor
    · rw [hstep]
    · intro p hp
      rw [hstep]
      dsimp only
      rw [xset_other _ _ _ _ hp]
      rcases mkdirAll_change (extractEntries cf xt (mkdirAll fs xt) pre).1
          (xt ++ e.name).dropLast p with g | g
      · exact Or.inl g
      · exact Or.inr g

/-- C9 (amended, witness): a malformed archive returns the open error; an
archive whose second entry cannot be opened fails fast with the open-entry
error while the first entry's extracted file stays in place. -/
theorem extractZip_error_policy_witness :
    (extractZip (fun _ => none) none (fun _ => false) ["t"]).2 =
      some ZipErr.openArchive ∧
    (extractZip (fun _ => none)
        (some [⟨["x.txt"], false, 420, true, Except.ok (), [1]⟩,
               ⟨["y.txt"], false, 420, false, Except.ok (), [2]⟩])
        (fun _ => false) ["t"]).2 = some (ZipErr.openEntry ["t", "y.txt"]) ∧
    (extractZip (fun _ => none)
        (some [⟨["x.txt"], false, 420, true, Except.ok (), [1]⟩,
               ⟨["y.txt"], false, 420, false, Except.ok (), [2]⟩])
        (fun _ => false) ["t"]).1 ["t", "x.txt"] = some (FNode.file [1]) := by
  have h := extractZip_error_policy (fun _ => false) ["t"]
  have hc := h.2.2 (fun _ => none)
    [⟨["x.txt"], false, 420, true, Except.ok (), [1]⟩] []
    ⟨["y.txt"], false, 420, false, Except.ok (), [2]⟩
    (by intro b hb; rw [List.mem_singleton] at hb; subst hb; rfl)
    rfl rfl rfl
  refine ⟨h.1 (fun _ => none), hc.1, ?_⟩
  rcases hc.2 ["t", "x.txt"] (by decide) with g | ⟨g1, _⟩
  · exact g.trans (by decide)
  · exact absurd g1 (by decide)

/-! ## Claim witness: fetcher quirks (C6) -/

/-- C6 (witness): a concrete URL containing both the codeplex redirector
domain and `ati.com` carries both injected headers, and the Oracle license
cookie entries are present in the jar. -/
theorem customGet_quirks_witness :
    (CustomGet "http://download-codeplex.sec.s-msft.com/ati.com/f.exe" none).elim False
      (fun rc =>
        getHeader rc.1 "User-Agent" = some "chocolatey command line" ∧
        getHeader rc.1 "Referer" = some "http://support.amd.com/" ∧
        ("http://download.oracle.com", "oraclelicense", "accept-securebackup-cookie") ∈
          rc.2.jar ∧
        ("https://edelivery.oracle.com", "oraclelicense", "accept-securebackup-cookie") ∈
          rc.2.jar) := by
  cases hrc : CustomGet "http://download-codeplex.sec.s-msft.com/ati.com/f.exe" none with
  | none => exact absurd hrc (by decide)
  | some rc =>
    have hq := customGet_quirks "http://download-codeplex.sec.s-msft.com/ati.com/f.exe"
      none rc hrc
    exact ⟨hq.1 (by decide), hq.2.1 (by decide), hq.2.2.1, hq.2.2.2⟩
